import Mathlib

/-!
Verification of the NX-OS interface-labelling script (src/IntfLabel.py).

The script collects three fact tables (CDP neighbors, port-channel
membership, FEX membership), merges them into one description dictionary
(make_desc_dict), renders sorted configuration commands and, after an
operator confirmation, pushes them to the device (write_desc).

The embedding below models the Python dictionaries as association lists
with unique keys (dinsert overwrites in place, lookupD reads the first
binding), Python string operations (substring test, replace, lower) as
executable functions on Lean strings, and the dynamic shape of the merged
dictionary values as the inductive type DescVal.
-/

/-- The single-quote character, used by the Python repr of strings. -/
def pyQ : String := String.singleton (Char.ofNat 39)

/-- Does the list s contain pat as a contiguous sublist? -/
def hasSubList : List Char → List Char → Bool
  | s, pat =>
    match s with
    | [] => pat.isEmpty
    | _ :: rest => List.isPrefixOf pat s || hasSubList rest pat

/-- Python substring test: pat in s. -/
def pyIn (pat s : String) : Bool := hasSubList s.toList pat.toList

/-- Fuel-indexed worker for Python str.replace: replaces every
non-overlapping occurrence of pat, scanning left to right.  The fuel is
the length of the scanned list, which bounds the recursion depth for the
non-empty patterns the script uses. -/
def replaceFuel : Nat → List Char → List Char → List Char → List Char
  | 0, s, _, _ => s
  | _ + 1, [], _, _ => []
  | fuel + 1, c :: rest, pat, rep =>
    if List.isPrefixOf pat (c :: rest) then
      rep ++ replaceFuel fuel (List.drop pat.length (c :: rest)) pat rep
    else
      c :: replaceFuel fuel rest pat rep

/-- Python str.replace(pat, rep): every occurrence is replaced. -/
def pyReplace (s pat rep : String) : String :=
  String.mk (replaceFuel s.toList.length s.toList pat.toList rep.toList)

/-- Embedding of short_name (src/IntfLabel.py lines 17-34).  Note that the
first branch tests for TenGigabitEthernet but replaces the substring
GigabitEthernet, exactly as the source does. -/
def short_name (s : String) : String :=
  if pyIn "TenGigabitEthernet" s then pyReplace s "GigabitEthernet" "T"
  else if pyIn "GigabitEthernet" s then pyReplace s "GigabitEthernet" "G"
  else if pyIn "FastEthernet" s then pyReplace s "FastEthernet" "F"
  else if pyIn "Ethernet" s then pyReplace s "Ethernet" "e"
  else if pyIn "Eth" s then pyReplace s "Eth" "e"
  else if pyIn "port-channel" s then pyReplace s "port-channel" "Po"
  else s

/-- The dynamic shape of a value of the merged dictionary built by
make_desc_dict.  Every value is a Python pair:
cdp n p denotes (n, p) from the CDP table; chan w denotes (v, None) where
v is the whole dictionary value w of the first channel member; fex label
denotes (label, None) written by the FEX loop. -/
inductive DescVal where
  | cdp (remoteName remotePort : String)
  | chan (member : DescVal)
  | fex (label : String)
deriving DecidableEq

/-- Python str() of the pair a DescVal denotes, as interpolated by the
percent-s format in write_desc. -/
def pyRepr : DescVal → String
  | DescVal.cdp n p => "(" ++ pyQ ++ n ++ pyQ ++ ", " ++ pyQ ++ p ++ pyQ ++ ")"
  | DescVal.chan w => "(" ++ pyRepr w ++ ", None)"
  | DescVal.fex label => "(" ++ pyQ ++ label ++ pyQ ++ ", None)"

/-- The merged dictionary: association list keyed by interface id. -/
abbrev DescDict := List (String × DescVal)

/-- Python dict write d[k] = v: overwrites the binding in place when the
key is present, otherwise appends a new binding. -/
def dinsert {α : Type} : List (String × α) → String → α → List (String × α)
  | [], k, v => [(k, v)]
  | (k0, v0) :: t, k, v =>
    if k0 = k then (k, v) :: t else (k0, v0) :: dinsert t k v

/-- Python dict read d.get(k): the first binding of the key. -/
def lookupD {α : Type} : List (String × α) → String → Option α
  | [], _ => none
  | (k0, v0) :: t, k => if k0 = k then some v0 else lookupD t k

/-- The key list of a dictionary. -/
def keys {α : Type} (d : List (String × α)) : List String := d.map Prod.fst

/-- One iteration of the port-channel loop of make_desc_dict (lines
150-152): when the member list is non-empty and the first member is a key
of the dictionary built so far, bind the channel to the pair
(value of the first member, None). -/
def pcStep (m : DescDict) (e : String × List String) : DescDict :=
  match e.2 with
  | [] => m
  | p0 :: _ =>
    match lookupD m p0 with
    | some v => dinsert m e.1 (DescVal.chan v)
    | none => m

/-- The port-channel loop of make_desc_dict, iterated over the
port-channel table in its iteration order. -/
def pcMerge : DescDict → List (String × List String) → DescDict
  | m, [] => m
  | m, e :: t => pcMerge (pcStep m e) t

/-- The port-channel loop instrumented to also return the list of channel
keys whose binding was created, in iteration order. -/
def pcMergeA : DescDict → List (String × List String) → DescDict × List String
  | m, [] => (m, [])
  | m, e :: t =>
    match e.2 with
    | [] => pcMergeA m t
    | p0 :: _ =>
      match lookupD m p0 with
      | some v =>
        let r := pcMergeA (dinsert m e.1 (DescVal.chan v)) t
        (r.1, e.1 :: r.2)
      | none => pcMergeA m t

/-- The channels that receive a binding during the port-channel loop when
it starts from the dictionary m. -/
def admittedChannels (m : DescDict) (pc : List (String × List String)) : List String :=
  (pcMergeA m pc).2

/-- The inner FEX loop (lines 154-155): bind every member port of one FEX
to the pair (label, None). -/
def fexInsertPorts : DescDict → String → List String → DescDict
  | m, _, [] => m
  | m, label, port :: rest => fexInsertPorts (dinsert m port (DescVal.fex label)) label rest

/-- The outer FEX loop of make_desc_dict (lines 153-155): the label of the
ports of FEX num is the string FEX followed by num. -/
def fexMerge : DescDict → List (String × List String) → DescDict
  | m, [] => m
  | m, e :: t => fexMerge (fexInsertPorts m ("FEX" ++ e.1) e.2) t

/-- All member ports of all FEX facts, in iteration order. -/
def fexPorts : List (String × List String) → List String
  | [] => []
  | e :: t => e.2 ++ fexPorts t

/-- Embedding of make_desc_dict (lines 142-156).  The statement
merge = cdp_dict binds merge to the very dictionary object cdp_dict, so
the seed of the loops is the CDP dictionary itself. -/
def make_desc_dict (cdp_dict : DescDict) (pc_dict : List (String × List String))
    (fex_dict : List (String × List String)) : DescDict :=
  fexMerge (pcMerge cdp_dict pc_dict) fex_dict

/-- The value held by the object the caller passed as cdp_dict once
make_desc_dict has returned.  Because merge = cdp_dict aliases the two
names to one dict object and every write of the two loops mutates that
shared object, the final value of cdp_dict is the merged dictionary
itself. -/
def cdp_dict_after (cdp_dict : DescDict) (pc_dict : List (String × List String))
    (fex_dict : List (String × List String)) : DescDict :=
  make_desc_dict cdp_dict pc_dict fex_dict

/-- Byte-wise lexicographic comparison of character lists, the order
Python 2 uses to compare plain strings. -/
def lexLe : List Char → List Char → Bool
  | [], _ => true
  | _ :: _, [] => false
  | a :: as, b :: bs =>
    if a.toNat < b.toNat then true
    else if b.toNat < a.toNat then false
    else lexLe as bs

/-- Lexicographic order on interface keys. -/
def keyLe (a b : String) : Bool := lexLe a.toList b.toList

/-- Insertion into a key-sorted item list. -/
def insertByKey (e : String × DescVal) : List (String × DescVal) → List (String × DescVal)
  | [] => [e]
  | f :: t => if keyLe e.1 f.1 then e :: f :: t else f :: insertByKey e t

/-- Python sorted(d.iteritems()): the items ordered by key (keys of a dict
are unique, so the values are never compared). -/
def sortItems : List (String × DescVal) → List (String × DescVal)
  | [] => []
  | e :: t => insertByKey e (sortItems t)

/-- One command of write_desc (lines 167-171): the branch on whether the
second component of the value is None, rendered with the percent-s
format. -/
def renderLine (intf : String) (v : DescVal) : String :=
  match v with
  | DescVal.cdp n p =>
    "int " ++ short_name intf ++ " ; description " ++ n ++ ":" ++ short_name p
  | DescVal.chan w => "int " ++ short_name intf ++ " ; description " ++ pyRepr w
  | DescVal.fex label => "int " ++ short_name intf ++ " ; description " ++ label

/-- The command list write_desc builds from the merged dictionary, in the
order sorted(int_dict.iteritems()) produces. -/
def write_desc_cmds (int_dict : DescDict) : List String :=
  (sortItems int_dict).map (fun e => renderLine e.1 e.2)

/-- Python 2 str.lower on one byte: the letters A to Z are lowered, every
other byte is unchanged. -/
def pyLowerChar (c : Char) : Char :=
  if 65 ≤ c.toNat ∧ c.toNat ≤ 90 then Char.ofNat (c.toNat + 32) else c

/-- Python 2 str.lower. -/
def pyLower (s : String) : String := String.mk (s.toList.map pyLowerChar)

/-- The configuration commands write_desc actually executes, as a function
of the operator response (lines 175-182): all of them, prefixed with
conf, when the lower-cased response is yes or y; none otherwise. -/
def write_desc_exec (int_dict : DescDict) (response : String) : List String :=
  if pyLower response == "yes" || pyLower response == "y" then
    (write_desc_cmds int_dict).map (fun l => "conf ; " ++ l)
  else []

/-- The FEX capability check of make_fex_dict (lines 120-129), as a
function of the outputs of the three feature commands. -/
def fex_enabled (platform featureSetOut featureOut : String) : Bool :=
  if pyIn "Nexus 7" platform then pyIn "enable" featureSetOut
  else if pyIn "Nexus 5" platform then pyIn "enable" featureOut
  else false

/-- The operational commands make_fex_dict issues, in order: the version
probe always, then the feature probe of the detected platform, then the
detail command only when the capability check succeeded. -/
def fex_commands_issued (platform featureSetOut featureOut : String) : List String :=
  ["show version | i Nexus"] ++
    (if pyIn "Nexus 7" platform then ["show feature-set | i fex"]
     else if pyIn "Nexus 5" platform then ["show feature | i fex"]
     else []) ++
    (if fex_enabled platform featureSetOut featureOut then ["show fex detail"] else [])

/-- One row of the FEX detail loop (lines 133-138): initialize the list of
a new chassis id, then append the member ports of the row. -/
def addFexRow (d : List (String × List String)) (row : String × List String) :
    List (String × List String) :=
  match lookupD d row.1 with
  | some cur => dinsert d row.1 (cur ++ row.2)
  | none => dinsert d row.1 row.2

/-- Embedding of make_fex_dict (lines 114-139) over the parsed rows of the
detail command: the empty dictionary when the capability check fails. -/
def make_fex_dict_model (platform featureSetOut featureOut : String)
    (rows : List (String × List String)) : List (String × List String) :=
  if fex_enabled platform featureSetOut featureOut then rows.foldl addFexRow [] else []

/-- The keys of a cons. -/
theorem keys_cons {α : Type} (e : String × α) (t : List (String × α)) :
    keys (e :: t) = e.1 :: keys t := rfl

/-- A dictionary write keeps the key list, except that a new key is
appended at the end. -/
theorem keys_dinsert {α : Type} (d : List (String × α)) (k : String) (v : α) :
    keys (dinsert d k v) = if k ∈ keys d then keys d else keys d ++ [k] := by
  induction d with
  | nil => simp [dinsert, keys]
  | cons e t ih =>
    obtain ⟨k0, v0⟩ := e
    by_cases h : k0 = k
    · subst h
      simp [dinsert, keys]
    · have h2 : ¬ (k = k0) := fun hh => h hh.symm
      have hstep : dinsert ((k0, v0) :: t) k v = (k0, v0) :: dinsert t k v := by
        simp [dinsert, h]
      rw [hstep, keys_cons, keys_cons, ih]
      by_cases hk : k ∈ keys t
      · simp [hk, h2]
      · simp [hk, h2]

/-- Key membership after a dictionary write. -/
theorem mem_keys_dinsert {α : Type} (d : List (String × α)) (k : String) (v : α)
    (k1 : String) : k1 ∈ keys (dinsert d k v) ↔ k1 = k ∨ k1 ∈ keys d := by
  rw [keys_dinsert]
  by_cases h : k ∈ keys d
  · simp only [if_pos h]
    constructor
    · exact Or.inr
    · rintro (rfl | hh)
      · exact h
      · exact hh
  · simp only [if_neg h, List.mem_append, List.mem_singleton]
    tauto

/-- A key is present exactly when its lookup succeeds. -/
theorem lookupD_isSome_iff {α : Type} (d : List (String × α)) (k : String) :
    (lookupD d k).isSome = true ↔ k ∈ keys d := by
  induction d with
  | nil => simp [lookupD, keys]
  | cons e t ih =>
    obtain ⟨k0, v0⟩ := e
    by_cases h : k0 = k
    · subst h
      simp [lookupD, keys]
    · have h2 : ¬ (k = k0) := fun hh => h hh.symm
      simp [lookupD, h, keys, ih, h2]

/-- Reading back the key just written. -/
theorem lookupD_dinsert_self {α : Type} (d : List (String × α)) (k : String) (v : α) :
    lookupD (dinsert d k v) k = some v := by
  induction d with
  | nil => simp [dinsert, lookupD]
  | cons e t ih =>
    obtain ⟨k0, v0⟩ := e
    by_cases h : k0 = k
    · subst h
      simp [dinsert, lookupD]
    · simp [dinsert, h, lookupD, ih]

/-- A write to one key leaves the reads of the other keys unchanged. -/
theorem lookupD_dinsert_ne {α : Type} (d : List (String × α)) (k : String) (v : α)
    (k1 : String) (h : k1 ≠ k) : lookupD (dinsert d k v) k1 = lookupD d k1 := by
  induction d with
  | nil =>
    have h2 : ¬ (k = k1) := fun hh => h hh.symm
    simp [dinsert, lookupD, h2]
  | cons e t ih =>
    obtain ⟨k0, v0⟩ := e
    by_cases h0 : k0 = k
    · subst h0
      have h2 : ¬ (k0 = k1) := fun hh => h hh.symm
      simp [dinsert, lookupD, h2]
    · simp [dinsert, h0, lookupD, ih]

/-- Key membership after the inner FEX loop. -/
theorem mem_keys_fexInsertPorts (ports : List String) (m : DescDict) (label : String)
    (k : String) : k ∈ keys (fexInsertPorts m label ports) ↔ k ∈ keys m ∨ k ∈ ports := by
  induction ports generalizing m with
  | nil => simp [fexInsertPorts]
  | cons p rest ih =>
    simp [fexInsertPorts, ih, mem_keys_dinsert]
    tauto

/-- The inner FEX loop does not touch the bindings of other ports. -/
theorem lookupD_fexInsertPorts_not_mem (ports : List String) (m : DescDict)
    (label : String) (k : String) (h : k ∉ ports) :
    lookupD (fexInsertPorts m label ports) k = lookupD m k := by
  induction ports generalizing m with
  | nil => simp [fexInsertPorts]
  | cons p rest ih =>
    have hk : k ∉ rest := fun hh => h (List.mem_cons_of_mem p hh)
    have hp : k ≠ p := fun hh => h (hh ▸ List.mem_cons_self p rest)
    rw [fexInsertPorts, ih _ hk, lookupD_dinsert_ne _ _ _ _ hp]

/-- Every member port of the inner FEX loop ends bound to the FEX label. -/
theorem lookupD_fexInsertPorts_mem (ports : List String) (m : DescDict)
    (label : String) (k : String) (h : k ∈ ports) :
    lookupD (fexInsertPorts m label ports) k = some (DescVal.fex label) := by
  induction ports generalizing m with
  | nil => simp at h
  | cons p rest ih =>
    by_cases hk : k ∈ rest
    · rw [fexInsertPorts, ih _ hk]
    · have hp : k = p := by
        rcases List.mem_cons.mp h with hh | hh
        · exact hh
        · exact absurd hh hk
      subst hp
      rw [fexInsertPorts, lookupD_fexInsertPorts_not_mem rest _ _ _ hk,
        lookupD_dinsert_self]

/-- Spelling out membership in the concatenated FEX port list. -/
theorem mem_fexPorts (l : List (String × List String)) (k : String) :
    k ∈ fexPorts l ↔ ∃ e, e ∈ l ∧ k ∈ e.2 := by
  induction l with
  | nil => simp [fexPorts]
  | cons e t ih =>
    simp [fexPorts, List.mem_append, ih]

/-- Key membership after the FEX loop. -/
theorem mem_keys_fexMerge (l : List (String × List String)) (m : DescDict) (k : String) :
    k ∈ keys (fexMerge m l) ↔ k ∈ keys m ∨ k ∈ fexPorts l := by
  induction l generalizing m with
  | nil => simp [fexMerge, fexPorts]
  | cons e t ih =>
    simp [fexMerge, ih, mem_keys_fexInsertPorts, fexPorts, List.mem_append]
    tauto

/-- The FEX loop does not touch ports outside the FEX tables. -/
theorem lookupD_fexMerge_not_mem (l : List (String × List String)) (m : DescDict)
    (k : String) (h : k ∉ fexPorts l) : lookupD (fexMerge m l) k = lookupD m k := by
  induction l generalizing m with
  | nil => simp [fexMerge]
  | cons e t ih =>
    have h1 : k ∉ e.2 := fun hh => h (by simp [fexPorts, List.mem_append, hh])
    have h2 : k ∉ fexPorts t := fun hh => h (by simp [fexPorts, List.mem_append, hh])
    rw [fexMerge, ih _ h2, lookupD_fexInsertPorts_not_mem _ _ _ _ h1]

/-- After the FEX loop, every port of some FEX table is bound to the label
FEX followed by the chassis id of one of the tables containing it. -/
theorem lookupD_fexMerge_mem (l : List (String × List String)) (m : DescDict)
    (k : String) (h : k ∈ fexPorts l) :
    ∃ num ports, (num, ports) ∈ l ∧ k ∈ ports ∧
      lookupD (fexMerge m l) k = some (DescVal.fex ("FEX" ++ num)) := by
  induction l generalizing m with
  | nil => simp [fexPorts] at h
  | cons e t ih =>
    by_cases ht : k ∈ fexPorts t
    · obtain ⟨num, ports, hmem, hk, hl⟩ := ih _ ht
      exact ⟨num, ports, List.mem_cons_of_mem e hmem, hk, hl⟩
    · have he : k ∈ e.2 := by
        rcases List.mem_append.mp (by simpa [fexPorts] using h) with hh | hh
        · exact hh
        · exact absurd hh ht
      refine ⟨e.1, e.2, ?_, he, ?_⟩
      · exact List.mem_cons_self e t
      · rw [fexMerge, lookupD_fexMerge_not_mem _ _ _ ht,
          lookupD_fexInsertPorts_mem _ _ _ _ he]

/-- One port-channel iteration never drops a key. -/
theorem mem_keys_pcStep_mono (m : DescDict) (e : String × List String) (k : String)
    (h : k ∈ keys m) : k ∈ keys (pcStep m e) := by
  obtain ⟨c, plist⟩ := e
  cases plist with
  | nil => exact h
  | cons p0 rest =>
    cases hl : lookupD m p0 with
    | none => simpa [pcStep, hl] using h
    | some v =>
      simp only [pcStep, hl]
      exact (mem_keys_dinsert m c _ k).mpr (Or.inr h)

/-- The port-channel loop never drops a key. -/
theorem mem_keys_pcMerge_mono (l : List (String × List String)) (m : DescDict)
    (k : String) (h : k ∈ keys m) : k ∈ keys (pcMerge m l) := by
  induction l generalizing m with
  | nil => exact h
  | cons e t ih => exact ih (pcStep m e) (mem_keys_pcStep_mono m e k h)

/-- The instrumented port-channel loop computes the same dictionary. -/
theorem pcMergeA_fst (l : List (String × List String)) (m : DescDict) :
    (pcMergeA m l).1 = pcMerge m l := by
  induction l generalizing m with
  | nil => rfl
  | cons e t ih =>
    obtain ⟨c, plist⟩ := e
    cases plist with
    | nil => simpa [pcMergeA, pcMerge, pcStep] using ih m
    | cons p0 rest =>
      cases hl : lookupD m p0 with
      | none => simpa [pcMergeA, pcMerge, pcStep, hl] using ih m
      | some v => simpa [pcMergeA, pcMerge, pcStep, hl] using ih (dinsert m c (DescVal.chan v))

/-- Key membership after the port-channel loop: the keys of the seed plus
the admitted channels. -/
theorem mem_keys_pcMerge (l : List (String × List String)) (m : DescDict) (k : String) :
    k ∈ keys (pcMerge m l) ↔ k ∈ keys m ∨ k ∈ admittedChannels m l := by
  induction l generalizing m with
  | nil => simp [pcMerge, admittedChannels, pcMergeA]
  | cons e t ih =>
    obtain ⟨c, plist⟩ := e
    cases plist with
    | nil =>
      simpa [pcMerge, pcStep, admittedChannels, pcMergeA] using ih m
    | cons p0 rest =>
      cases hl : lookupD m p0 with
      | none =>
        simpa [pcMerge, pcStep, admittedChannels, pcMergeA, hl] using ih m
      | some v =>
        have h2 := ih (dinsert m c (DescVal.chan v))
        simp only [pcMerge, pcStep, hl, admittedChannels, pcMergeA] at h2 ⊢
        simp only [h2, mem_keys_dinsert, List.mem_cons]
        tauto

/-- Every admitted channel comes with a non-empty member list whose head
was, at the moment of admission, a key of the running dictionary: that
head is a key of the seed or the name of some channel of the table. -/
theorem admitted_head_mem (l : List (String × List String)) (m : DescDict) (k : String)
    (h : k ∈ admittedChannels m l) :
    ∃ plist p0 t, (k, plist) ∈ l ∧ plist = p0 :: t ∧
      (p0 ∈ keys m ∨ p0 ∈ l.map Prod.fst) := by
  induction l generalizing m with
  | nil => simp [admittedChannels, pcMergeA] at h
  | cons e t ih =>
    obtain ⟨c, plist⟩ := e
    cases plist with
    | nil =>
      simp only [admittedChannels, pcMergeA] at h
      obtain ⟨pl, p0, tt, hmem, heq, hp⟩ := ih m h
      exact ⟨pl, p0, tt, List.mem_cons_of_mem _ hmem, heq,
        hp.imp id (fun hh => by simpa using Or.inr hh)⟩
    | cons p0 rest =>
      cases hl : lookupD m p0 with
      | none =>
        simp only [admittedChannels, pcMergeA, hl] at h
        obtain ⟨pl, q0, tt, hmem, heq, hp⟩ := ih m h
        exact ⟨pl, q0, tt, List.mem_cons_of_mem _ hmem, heq,
          hp.imp id (fun hh => by simpa using Or.inr hh)⟩
      | some v =>
        simp only [admittedChannels, pcMergeA, hl] at h
        rcases List.mem_cons.mp h with rfl | h2
        · refine ⟨p0 :: rest, p0, rest, List.mem_cons_self _ _, rfl, Or.inl ?_⟩
          exact (lookupD_isSome_iff m p0).mp (by simp [hl])
        · obtain ⟨pl, q0, tt, hmem, heq, hp⟩ := ih (dinsert m c (DescVal.chan v)) h2
          refine ⟨pl, q0, tt, List.mem_cons_of_mem _ hmem, heq, ?_⟩
          rcases hp with hp | hp
          · rcases (mem_keys_dinsert m c _ q0).mp hp with rfl | hp2
            · exact Or.inr (by simp)
            · exact Or.inl hp2
          · exact Or.inr (by simpa using Or.inr hp)

/-- A channel of the table whose first member is already a key of the
seed is admitted by the loop. -/
theorem pcMerge_mem_of_head (l : List (String × List String)) (m : DescDict)
    (c p0 : String) (t0 : List String) (hmem : (c, p0 :: t0) ∈ l)
    (hp : p0 ∈ keys m) : c ∈ keys (pcMerge m l) := by
  induction l generalizing m with
  | nil => simp at hmem
  | cons e t ih =>
    rcases List.mem_cons.mp hmem with heq | hmem2
    · have hs : (lookupD m p0).isSome = true := (lookupD_isSome_iff m p0).mpr hp
      cases hl : lookupD m p0 with
      | none => rw [hl] at hs; simp at hs
      | some v =>
        have hstep : pcStep m e = dinsert m c (DescVal.chan v) := by
          rw [← heq]
          simp [pcStep, hl]
        rw [pcMerge, hstep]
        exact mem_keys_pcMerge_mono t _ c ((mem_keys_dinsert m c _ c).mpr (Or.inl rfl))
    · exact ih (pcStep m e) hmem2 (mem_keys_pcStep_mono m e p0 hp)

/-- With unique keys, an association list binds a key to one value. -/
theorem assoc_val_unique {β : Type} (l : List (String × β))
    (hnd : (l.map Prod.fst).Nodup) (k : String) (a b : β)
    (ha : (k, a) ∈ l) (hb : (k, b) ∈ l) : a = b := by
  induction l with
  | nil => simp at ha
  | cons e t ih =>
    simp only [List.map_cons, List.nodup_cons] at hnd
    rcases List.mem_cons.mp ha with h1 | h1
    · rcases List.mem_cons.mp hb with h2 | h2
      · rw [← h1] at h2
        exact (Prod.mk.injEq k a k b).mp h2.symm |>.2
      · exfalso
        apply hnd.1
        rw [← h1]
        simpa using List.mem_map_of_mem Prod.fst h2
    · rcases List.mem_cons.mp hb with h2 | h2
      · exfalso
        apply hnd.1
        rw [← h2]
        simpa using List.mem_map_of_mem Prod.fst h1
      · exact ih hnd.2 h1 h2

/-- The byte-wise order is total. -/
theorem lexLe_total (a b : List Char) : lexLe a b = true ∨ lexLe b a = true := by
  induction a generalizing b with
  | nil => exact Or.inl rfl
  | cons x xs ih =>
    cases b with
    | nil => exact Or.inr rfl
    | cons y ys =>
      by_cases h1 : x.toNat < y.toNat
      · left
        simp [lexLe, h1]
      · by_cases h2 : y.toNat < x.toNat
        · right
          simp [lexLe, h2]
        · simpa [lexLe, h1, h2] using ih ys

/-- The head of a byte-wise comparison never exceeds the other head. -/
theorem lexLe_head_le (x y : Char) (xs ys : List Char)
    (h : lexLe (x :: xs) (y :: ys) = true) : x.toNat ≤ y.toNat := by
  simp only [lexLe] at h
  by_cases hxy : x.toNat < y.toNat
  · omega
  · by_cases hyx : y.toNat < x.toNat
    · simp [hxy, hyx] at h
    · omega

/-- With equal heads, the byte-wise comparison is that of the tails. -/
theorem lexLe_tail (x y : Char) (xs ys : List Char) (hxy : ¬ x.toNat < y.toNat)
    (hyx : ¬ y.toNat < x.toNat) : lexLe (x :: xs) (y :: ys) = lexLe xs ys := by
  simp only [lexLe]
  simp [hxy, hyx]

/-- The byte-wise order is transitive. -/
theorem lexLe_trans (a b c : List Char) (h1 : lexLe a b = true) (h2 : lexLe b c = true) :
    lexLe a c = true := by
  induction a generalizing b c with
  | nil => rfl
  | cons x xs ih =>
    cases b with
    | nil => simp [lexLe] at h1
    | cons y ys =>
      cases c with
      | nil => simp [lexLe] at h2
      | cons z zs =>
        have hxy2 : x.toNat ≤ y.toNat := lexLe_head_le x y xs ys h1
        have hyz2 : y.toNat ≤ z.toNat := lexLe_head_le y z ys zs h2
        by_cases hxz : x.toNat < z.toNat
        · simp [lexLe, hxz]
        · have hzx : ¬ z.toNat < x.toNat := by omega
          have hxy3 : ¬ x.toNat < y.toNat := by omega
          have hyx3 : ¬ y.toNat < x.toNat := by omega
          have hyz3 : ¬ y.toNat < z.toNat := by omega
          have hzy3 : ¬ z.toNat < y.toNat := by omega
          rw [lexLe_tail x y xs ys hxy3 hyx3] at h1
          rw [lexLe_tail y z ys zs hyz3 hzy3] at h2
          rw [lexLe_tail x z xs zs hxz hzx]
          exact ih ys zs h1 h2

/-- The key order is total. -/
theorem keyLe_total (a b : String) : keyLe a b = true ∨ keyLe b a = true :=
  lexLe_total a.toList b.toList

/-- The key order is transitive. -/
theorem keyLe_trans (a b c : String) (h1 : keyLe a b = true) (h2 : keyLe b c = true) :
    keyLe a c = true :=
  lexLe_trans a.toList b.toList c.toList h1 h2

/-- Membership through a sorted insertion. -/
theorem mem_insertByKey (e : String × DescVal) (l : List (String × DescVal))
    (x : String × DescVal) : x ∈ insertByKey e l ↔ x = e ∨ x ∈ l := by
  induction l with
  | nil => simp [insertByKey]
  | cons f t ih =>
    by_cases h : keyLe e.1 f.1
    · simp [insertByKey, h]
    · simp [insertByKey, h, ih]
      tauto

/-- A sorted insertion keeps the item list sorted by key. -/
theorem pairwise_insertByKey (e : String × DescVal) (l : List (String × DescVal))
    (h : l.Pairwise (fun a b => keyLe a.1 b.1 = true)) :
    (insertByKey e l).Pairwise (fun a b => keyLe a.1 b.1 = true) := by
  induction l with
  | nil => simp [insertByKey]
  | cons f t ih =>
    rcases List.pairwise_cons.mp h with ⟨hf, ht⟩
    by_cases hef : keyLe e.1 f.1
    · simp only [insertByKey, if_pos hef]
      refine List.Pairwise.cons ?_ h
      intro x hx
      rcases List.mem_cons.mp hx with rfl | hx2
      · exact hef
      · exact keyLe_trans _ _ _ hef (hf x hx2)
    · simp only [insertByKey, if_neg hef]
      refine List.Pairwise.cons ?_ (ih ht)
      intro x hx
      rcases (mem_insertByKey e t x).mp hx with hxe | hx2
      · subst hxe
        rcases keyLe_total x.1 f.1 with h1 | h1
        · exact absurd h1 hef
        · exact h1
      · exact hf x hx2

/-- The item list of sorted(d.iteritems()) is sorted by key. -/
theorem sortItems_pairwise (l : List (String × DescVal)) :
    (sortItems l).Pairwise (fun a b => keyLe a.1 b.1 = true) := by
  induction l with
  | nil => simp [sortItems]
  | cons e t ih => exact pairwise_insertByKey e _ ih

/-- Claim C1: on the example input the spec expects the commands
interface Eth1/1 description SwitchA:Eth2/1 and interface Po1 description
SwitchA:Eth2/1.  The code instead emits the member command with shortened
names and, for the channel Po1, interpolates the whole member value pair,
so the channel description is the raw Python tuple repr rather than the
two fields joined by a colon. -/
theorem write_desc_example_tuple_bug :
    write_desc_cmds (make_desc_dict [("Eth1/1", DescVal.cdp "SwitchA" "Eth2/1")]
        [("Po1", ["Eth1/1"])] []) =
      ["int e1/1 ; description SwitchA:e2/1",
       "int Po1 ; description (" ++ pyQ ++ "SwitchA" ++ pyQ ++ ", " ++ pyQ ++
         "Eth2/1" ++ pyQ ++ ")"] := by
  decide

/-- Claim C2: the spec expects short_name of TenGigabitEthernet1/1 to be
the T-prefixed form T1/1.  The first branch of the code tests for
TenGigabitEthernet but replaces only the GigabitEthernet fragment, so the
result is TenT1/1. -/
theorem short_name_tengig_bug : short_name "TenGigabitEthernet1/1" = "TenT1/1" := by
  decide

/-- Claim C3: the claim says merge does not mutate its neighbors argument
and builds the result by copy.  The code comment says Copy, but the
statement merge = cdp_dict aliases the merged dictionary to the neighbor
dictionary, so after the call the neighbor dictionary holds the merged
result: it has gained the port-channel key Po1. -/
theorem make_desc_dict_mutates_neighbors :
    "Po1" ∈ keys (cdp_dict_after [("Eth1/1", DescVal.cdp "SwitchA" "Eth2/1")]
        [("Po1", ["Eth1/1"])] []) ∧
    "Po1" ∉ keys [("Eth1/1", DescVal.cdp "SwitchA" "Eth2/1")] ∧
    cdp_dict_after [("Eth1/1", DescVal.cdp "SwitchA" "Eth2/1")] [("Po1", ["Eth1/1"])] [] ≠
      [("Eth1/1", DescVal.cdp "SwitchA" "Eth2/1")] := by
  decide

/-- Claim C4: for every port that is a neighbor key and a member port of
some FEX fact, the final entry of the merged dictionary is the FEX label
of one of the FEX facts containing it, with no secondary: the FEX loop
runs last and overwrites every earlier description of the port. -/
theorem make_desc_dict_fex_precedence (cdp : DescDict)
    (pc fex : List (String × List String)) (p : String)
    (_hn : p ∈ keys cdp) (hf : ∃ e, e ∈ fex ∧ p ∈ e.2) :
    ∃ num, (∃ ports, (num, ports) ∈ fex ∧ p ∈ ports) ∧
      lookupD (make_desc_dict cdp pc fex) p = some (DescVal.fex ("FEX" ++ num)) := by
  have hp : p ∈ fexPorts fex := (mem_fexPorts fex p).mpr hf
  obtain ⟨num, ports, hmem, hpp, hl⟩ := lookupD_fexMerge_mem fex (pcMerge cdp pc) p hp
  exact ⟨num, ⟨ports, hmem, hpp⟩, hl⟩

/-- Witness for claim C4, at the second example of the spec: port Eth1/2
has the neighbor SwitchB and belongs to FEX 101; its final description is
FEX101. -/
theorem make_desc_dict_fex_precedence_witness :
    "Eth1/2" ∈ keys [("Eth1/2", DescVal.cdp "SwitchB" "Eth3/1")] ∧
    ∃ num, (∃ ports, (num, ports) ∈ [("101", ["Eth1/2"])] ∧ "Eth1/2" ∈ ports) ∧
      lookupD (make_desc_dict [("Eth1/2", DescVal.cdp "SwitchB" "Eth3/1")] []
        [("101", ["Eth1/2"])]) "Eth1/2" = some (DescVal.fex ("FEX" ++ num)) :=
  ⟨by decide,
   make_desc_dict_fex_precedence [("Eth1/2", DescVal.cdp "SwitchB" "Eth3/1")] []
     [("101", ["Eth1/2"])] "Eth1/2" (by decide) ⟨("101", ["Eth1/2"]), by decide, by decide⟩⟩

/-- Counterexample to claim C5: the code admits a channel when its first
member is a key of the partially merged dictionary, not of the neighbor
facts.  Channel Po2 has the non-empty member list containing only Po1,
Po1 is not a neighbor key, and yet Po2 receives an entry because Po1 was
admitted one iteration earlier. -/
theorem pc_entry_iff_neighbor_counterexample :
    "Po2" ∈ keys (make_desc_dict [("Eth1/1", DescVal.cdp "SwitchA" "Eth2/1")]
        [("Po1", ["Eth1/1"]), ("Po2", ["Po1"])] []) ∧
    lookupD [("Po1", ["Eth1/1"]), ("Po2", ["Po1"])] "Po2" = some ["Po1"] ∧
    "Po1" ∉ keys [("Eth1/1", DescVal.cdp "SwitchA" "Eth2/1")] := by
  decide

/-- Claim C5 as amended: for a channel of the port-channel table whose
name is fresh (not a neighbor key, not a FEX member port, channel names
unique) and whose first member is not itself a channel name, the merged
dictionary has an entry for the channel exactly when the member list is
non-empty and the first member is a neighbor key.  Without the
first-member proviso the code also admits a channel whose first member is
an earlier admitted channel. -/
theorem pc_entry_iff_amended (cdp : DescDict) (pc fex : List (String × List String))
    (c : String) (plist : List String)
    (hmem : (c, plist) ∈ pc)
    (hnd : (pc.map Prod.fst).Nodup)
    (hc1 : c ∉ keys cdp)
    (hc2 : c ∉ fexPorts fex)
    (hheads : ∀ q ∈ pc.map Prod.fst, plist.head? ≠ some q) :
    c ∈ keys (make_desc_dict cdp pc fex) ↔
      ∃ p0 t0, plist = p0 :: t0 ∧ p0 ∈ keys cdp := by
  constructor
  · intro h
    have h2 : c ∈ keys (pcMerge cdp pc) ∨ c ∈ fexPorts fex :=
      (mem_keys_fexMerge fex (pcMerge cdp pc) c).mp
        (by simpa [make_desc_dict] using h)
    rcases h2 with h2 | h2
    · have h3 := (mem_keys_pcMerge pc cdp c).mp h2
      rcases h3 with h3 | h3
      · exact absurd h3 hc1
      · obtain ⟨pl, p0, t0, hmem2, heq, hp⟩ := admitted_head_mem pc cdp c h3
        have hpl : pl = plist := assoc_val_unique pc hnd c pl plist hmem2 hmem
        have heq2 : plist = p0 :: t0 := by rw [← hpl]; exact heq
        rcases hp with hp | hp
        · exact ⟨p0, t0, heq2, hp⟩
        · exact absurd (by rw [heq2]; rfl) (hheads p0 hp)
    · exact absurd h2 hc2
  · rintro ⟨p0, t0, heq, hp⟩
    have hmem2 : (c, p0 :: t0) ∈ pc := by rw [← heq]; exact hmem
    have h4 : c ∈ keys (pcMerge cdp pc) := pcMerge_mem_of_head pc cdp c p0 t0 hmem2 hp
    show c ∈ keys (fexMerge (pcMerge cdp pc) fex)
    exact (mem_keys_fexMerge fex (pcMerge cdp pc) c).mpr (Or.inl h4)

/-- Witness for the amended claim C5, at the example of the spec: Po1 is
fresh, its first member Eth1/1 is a neighbor key, so the merged
dictionary has an entry for Po1. -/
theorem pc_entry_iff_amended_witness :
    "Po1" ∉ keys [("Eth1/1", DescVal.cdp "SwitchA" "Eth2/1")] ∧
    "Po1" ∈ keys (make_desc_dict [("Eth1/1", DescVal.cdp "SwitchA" "Eth2/1")]
      [("Po1", ["Eth1/1"])] []) :=
  ⟨by decide,
   (pc_entry_iff_amended [("Eth1/1", DescVal.cdp "SwitchA" "Eth2/1")] [("Po1", ["Eth1/1"])]
      [] "Po1" ["Eth1/1"] (by decide) (by decide) (by decide) (by decide)
      (by decide)).mpr ⟨"Eth1/1", [], rfl, by decide⟩⟩

/-- Counterexample to claim C6: the identifier Eth1/1 contains none of
the five substrings the claim lists, yet short_name rewrites it to e1/1
through the sixth branch of the code, which matches the substring Eth. -/
theorem short_name_passthrough_counterexample :
    pyIn "TenGigabitEthernet" "Eth1/1" = false ∧
    pyIn "GigabitEthernet" "Eth1/1" = false ∧
    pyIn "FastEthernet" "Eth1/1" = false ∧
    pyIn "Ethernet" "Eth1/1" = false ∧
    pyIn "port-channel" "Eth1/1" = false ∧
    short_name "Eth1/1" = "e1/1" ∧
    short_name "Eth1/1" ≠ "Eth1/1" := by
  decide

/-- Claim C6 as amended: an identifier containing none of the six
substrings TenGigabitEthernet, GigabitEthernet, FastEthernet, Ethernet,
Eth and port-channel passes through short_name unchanged.  The claim
listed only five substrings and omitted the Eth branch, so Eth1/1 is not
left unchanged, while mgmt0 is. -/
theorem short_name_passthrough_amended (s : String)
    (h1 : pyIn "TenGigabitEthernet" s = false) (h2 : pyIn "GigabitEthernet" s = false)
    (h3 : pyIn "FastEthernet" s = false) (h4 : pyIn "Ethernet" s = false)
    (h5 : pyIn "Eth" s = false) (h6 : pyIn "port-channel" s = false) :
    short_name s = s := by
  simp [short_name, h1, h2, h3, h4, h5, h6]

/-- Witness for the amended claim C6: mgmt0 matches no branch and passes
through unchanged. -/
theorem short_name_passthrough_amended_witness :
    (pyIn "Eth" "mgmt0" = false ∧ pyIn "port-channel" "mgmt0" = false) ∧
    short_name "mgmt0" = "mgmt0" :=
  ⟨by decide,
   short_name_passthrough_amended "mgmt0" (by decide) (by decide) (by decide) (by decide)
     (by decide) (by decide)⟩

/-- Claim C7: the pipeline is a pure function of the three fact tables,
so two runs on identical tables produce the same merged dictionary and
the same command list, and the command list is the rendering of the
merged items sorted lexicographically by the canonical interface key. -/
theorem pipeline_sorted_deterministic (cdp : DescDict)
    (pc fex : List (String × List String)) :
    (sortItems (make_desc_dict cdp pc fex)).Pairwise (fun a b => keyLe a.1 b.1 = true) ∧
    write_desc_cmds (make_desc_dict cdp pc fex) =
      (sortItems (make_desc_dict cdp pc fex)).map (fun e => renderLine e.1 e.2) :=
  ⟨sortItems_pairwise (make_desc_dict cdp pc fex), rfl⟩

/-- Claim C8: the apply step executes the whole synthesized command list,
in order, exactly when the lower-cased operator response is yes or y, and
executes nothing otherwise; in particular the empty response executes
nothing. -/
theorem write_desc_gate (int_dict : DescDict) (response : String) :
    write_desc_exec int_dict response =
      (if pyLower response = "yes" ∨ pyLower response = "y" then
        (write_desc_cmds int_dict).map (fun l => "conf ; " ++ l)
      else []) ∧
    write_desc_exec int_dict "" = [] := by
  constructor
  · by_cases h : pyLower response = "yes" ∨ pyLower response = "y"
    · have hb : (pyLower response == "yes" || pyLower response == "y") = true := by
        rcases h with h | h <;> simp [h]
      simp [write_desc_exec, hb, h]
    · have hb : (pyLower response == "yes" || pyLower response == "y") = false := by
        push_neg at h
        simp [h.1, h.2]
      simp [write_desc_exec, hb, h]
  · have hb : (pyLower "" == "yes" || pyLower "" == "y") = false := by decide
    simp [write_desc_exec, hb]

/-- Claim C9: when the FEX capability check fails, among others on every
platform that is neither a Nexus 7 nor a Nexus 5, make_fex_dict returns
the empty mapping, the detail command is never issued, and the pipeline
proceeds normally with the FEX step a no-op. -/
theorem make_fex_dict_unsupported (platform featureSetOut featureOut : String)
    (rows : List (String × List String)) (cdp : DescDict)
    (pc : List (String × List String))
    (h : fex_enabled platform featureSetOut featureOut = false) :
    make_fex_dict_model platform featureSetOut featureOut rows = [] ∧
    "show fex detail" ∉ fex_commands_issued platform featureSetOut featureOut ∧
    make_desc_dict cdp pc (make_fex_dict_model platform featureSetOut featureOut rows) =
      pcMerge cdp pc := by
  have h1 : make_fex_dict_model platform featureSetOut featureOut rows = [] := by
    simp [make_fex_dict_model, h]
  refine ⟨h1, ?_, ?_⟩
  · by_cases h7 : pyIn "Nexus 7" platform = true
    · have he : fex_commands_issued platform featureSetOut featureOut =
          ["show version | i Nexus", "show feature-set | i fex"] := by
        simp [fex_commands_issued, h7, h]
      rw [he]
      decide
    · by_cases h5 : pyIn "Nexus 5" platform = true
      · have he : fex_commands_issued platform featureSetOut featureOut =
            ["show version | i Nexus", "show feature | i fex"] := by
          simp [fex_commands_issued, h7, h5, h]
        rw [he]
        decide
      · have he : fex_commands_issued platform featureSetOut featureOut =
            ["show version | i Nexus"] := by
          simp [fex_commands_issued, h7, h5, h]
        rw [he]
        decide
  · rw [h1]
    rfl

/-- Witness for claim C9: a platform string naming neither a Nexus 7 nor
a Nexus 5 fails the capability check, yields the empty mapping and never
issues the detail command. -/
theorem make_fex_dict_unsupported_witness :
    fex_enabled "Cisco Nexus 9000 Chassis" "" "" = false ∧
    (make_fex_dict_model "Cisco Nexus 9000 Chassis" "" "" [("101", ["Eth1/10"])] = [] ∧
     "show fex detail" ∉ fex_commands_issued "Cisco Nexus 9000 Chassis" "" "" ∧
     make_desc_dict [] [] (make_fex_dict_model "Cisco Nexus 9000 Chassis" "" ""
       [("101", ["Eth1/10"])]) = pcMerge [] []) :=
  ⟨by decide,
   make_fex_dict_unsupported "Cisco Nexus 9000 Chassis" "" "" [("101", ["Eth1/10"])] [] []
     (by decide)⟩

/-- Claim C10: the key set of the merged dictionary is exactly the union
of the neighbor keys, the channels admitted by the first-member rule of
the port-channel loop, and the FEX member ports; in particular no
neighbor key is ever removed. -/
theorem make_desc_dict_keys_union (cdp : DescDict)
    (pc fex : List (String × List String)) (k : String) :
    k ∈ keys (make_desc_dict cdp pc fex) ↔
      k ∈ keys cdp ∨ k ∈ admittedChannels cdp pc ∨ k ∈ fexPorts fex := by
  show k ∈ keys (fexMerge (pcMerge cdp pc) fex) ↔ _
  rw [mem_keys_fexMerge, mem_keys_pcMerge]
  tauto
